import Mathlib

/-!
Verification of the SD1306 image converter (`imconv.py`).

The program converts a raster image to a packed 1-bit-per-pixel byte stream
for SSD1306-class displays.  We embed the arithmetic core of the script:
`scale_crop`, `rgba2rgb`, `color_invert`, `get_y`, the scale-factor and
dimension logic of `main`, the block-downscaling loop, and the bit-packing
loop.  The Python floor division `//` is modelled by `Int.fdiv`; fallible
operations (out-of-range pixel access, division by zero) return `Option`.
-/

namespace Imconv

/-- Function `scale_crop` (imconv.py lines 6-21): `v = (v + scale - 1) // scale`,
then clamp to `[0, 255]`.  Python `//` is floor division: `Int.fdiv`. -/
def scale_crop (v : Int) (scale : Int := 256) : Int :=
  let v := Int.fdiv (v + scale - 1) scale
  if v < 0 then 0
  else if v > 255 then 255
  else v

/-- Function `rgba2rgb` (lines 23-43): composite an RGBA color over a background
(default white) channel-wise, each channel through `scale_crop` with the
default scale 256. -/
def rgba2rgb (r g b alpha : Int)
    (bg_r : Int := 255) (bg_g : Int := 255) (bg_b : Int := 255) :
    Int × Int × Int :=
  (scale_crop ((255 - alpha) * bg_r + alpha * r),
   scale_crop ((255 - alpha) * bg_g + alpha * g),
   scale_crop ((255 - alpha) * bg_b + alpha * b))

/-- Function `color_invert` (lines 45-54): per-channel `255 - c`. -/
def color_invert (c : Int × Int × Int) : Int × Int × Int :=
  (255 - c.1, 255 - c.2.1, 255 - c.2.2)

/-- Function `get_y` (lines 57-66): integer luma `scale_crop(76*r + 150*g + 29*b)`. -/
def get_y (rgb : Int × Int × Int) : Int :=
  scale_crop (76 * rgb.1 + 150 * rgb.2.1 + 29 * rgb.2.2)

/-- The value stored in `vpx` for one source pixel (line 325):
`get_y(color_invert(rgb))`. -/
def lumaInv (rgb : Int × Int × Int) : Int :=
  get_y (color_invert rgb)

/-- The grayscale branch of the pixel normalisation (lines 290 and 321-323):
`i_mode = 1 << bits` and `pxx = scale_crop(sample, i_mode // 256)`, broadcast
to the three channels.  When `i_mode // 256 = 0` Python raises
`ZeroDivisionError` inside `scale_crop`; that failure is modelled as `none`. -/
def grayToRgb (i_mode : Nat) (sample : Int) : Option (Int × Int × Int) :=
  if (i_mode / 256 : Nat) = 0 then none
  else
    let pxx := scale_crop sample (i_mode / 256 : Nat)
    some (pxx, pxx, pxx)

/-- Scale-factor computation of `main` (lines 245-252):
`s = dim // dest; if s < 1 then s = 1`. -/
def scale_factor (dim dest : Nat) : Nat :=
  if dim / dest < 1 then 1 else dim / dest

/-- The source coordinates of the block feeding destination pixel at source
origin `(x, y)` (lines 314-315): `yy` outer, `xx` inner. -/
def blockPixels (sx sy x y : Nat) : List (Nat × Nat) :=
  (List.range sy).flatMap fun yy => (List.range sx).map fun xx => (x + xx, y + yy)

/-- The averaged value of one destination pixel (lines 311-329): gather the
inverted-luma of every source pixel of the block, then
`r = sum(vpx) // (scale_factor_x * scale_factor_y)`.  A pixel access outside
the image yields `none` (PIL raises `IndexError`). -/
def cellValue (px : Nat → Nat → Option (Int × Int × Int)) (sx sy x y : Nat) :
    Option Int :=
  ((blockPixels sx sy x y).mapM fun c => (px c.1 c.2).map lumaInv).map
    fun vpx => Int.fdiv vpx.sum (sx * sy : Nat)

/-- The downscaling double loop (lines 307-338): `y in range(0, h, sy)`,
`x in range(0, w, sx)`; destination cell `img[y // sy][x // sx]` is set
iff `r > thr`.  `range(0, n, s)` has `⌈n / s⌉` elements, the `k`-th being
`k * s`. -/
def buildGrid (px : Nat → Nat → Option (Int × Int × Int)) (w h sx sy : Nat)
    (thr : Int) : Option (List (List Bool)) :=
  (List.range ((h + sy - 1) / sy)).mapM fun dy =>
    (List.range ((w + sx - 1) / sx)).mapM fun dx =>
      (cellValue px sx sy (dx * sx) (dy * sy)).map fun r => decide (r > thr)

/-- Grid lookup `img[yc][x]` (line 347); every access the program performs is
in bounds, so the defaults are never the value read in a real run. -/
def gridGet (g : List (List Bool)) (yc x : Nat) : Bool :=
  (g.getD yc []).getD x false

/-- The mutable packing state of lines 304-306: the bit accumulator `byte`,
the moving mask `byte_offset`, and the growing `result_array`. -/
structure PackState where
  byte : Nat
  off : Nat
  res : List Nat
deriving Repr, DecidableEq

/-- One iteration of the innermost packing loop (lines 345-354): OR the mask
into `byte` when row `yc` is a lit pixel, shift the mask, and flush the byte
when the mask reaches 256. -/
def bitStep (g : List (List Bool)) (hn x yc : Nat) (st : PackState) : PackState :=
  let b := if yc < hn ∧ gridGet g yc x then st.byte ||| st.off else st.byte
  let o := st.off <<< 1
  if o ≥ 256 then ⟨0, 1, st.res ++ [b]⟩ else ⟨b, o, st.res⟩

/-- One column of one page (lines 345-359): the 8-row inner loop followed by
the partial-byte flush of lines 356-359. -/
def packColumn (g : List (List Bool)) (hn n x : Nat) (st : PackState) : PackState :=
  let st := (List.range 8).foldl (fun s y => bitStep g hn x (n * 8 + y) s) st
  if st.off > 1 then ⟨0, 1, st.res ++ [st.byte]⟩ else st

/-- The full packing loop (lines 343-365): pages outer, columns middle, the
8 rows of the page inner, plus the final flush of lines 364-365. -/
def pack (g : List (List Bool)) (hn wn hn2 : Nat) : List Nat :=
  let st := (List.range hn2).foldl
    (fun s n => (List.range wn).foldl (fun s2 x => packColumn g hn n x s2) s)
    ⟨0, 1, []⟩
  if st.off > 1 then st.res ++ [st.byte] else st.res

/-- The computational pipeline of `main` for an already-normalised pixel
accessor (lines 245-365): scale factors, result dimensions, the fatal
dimension check of lines 260-266, the downscaling loops and bit packing.
`exit(...)` and crashes are `none`; `dest_w = 0` or `dest_h = 0` would make
the Python expression `w // dest_w` raise `ZeroDivisionError`, hence `none` as well. -/
def convert (px : Nat → Nat → Option (Int × Int × Int)) (w h dest_w dest_h : Nat)
    (thr : Int) : Option (List Nat) :=
  if dest_w = 0 ∨ dest_h = 0 then none
  else if h / scale_factor h dest_h ≠ dest_h ∨ w / scale_factor w dest_w ≠ dest_w then
    none
  else
    (buildGrid px w h (scale_factor w dest_w) (scale_factor h dest_h) thr).map
      fun g => pack g (h / scale_factor h dest_h) (w / scale_factor w dest_w)
        ((h / scale_factor h dest_h + 8 - 1) / 8)

/-- The first `j` bits of the byte the packer builds for page `n`, column `x`:
bit `y` (weight `2 ^ y`) is set iff row `n * 8 + y` is below `hn` and lit at
column `x`.  `pagePartial g hn n x 8` is the full byte. -/
def pagePartial (g : List (List Bool)) (hn n x j : Nat) : Nat :=
  (List.range j).foldl
    (fun acc y => acc + if n * 8 + y < hn ∧ gridGet g (n * 8 + y) x then 2 ^ y else 0) 0

/-- Ceiling division as the specification words it. -/
def ceil_div (a b : Int) : Int := -(Int.fdiv (-a) b)

/-- Clamp to `[0, 255]` as the specification words it. -/
def clamp (v : Int) : Int := max 0 (min 255 v)

/-- Modelled from the spec: the RGBA normalisation exactly as claimed, with
ceiling division by 255 (`out = round_up_div((255 - alpha)*bg + alpha*channel,
255)` then clamp), to compare against `rgba2rgb` of the source. -/
def rgba2rgb_claim255 (r g b alpha : Int) : Int × Int × Int :=
  (clamp (ceil_div ((255 - alpha) * 255 + alpha * r) 255),
   clamp (ceil_div ((255 - alpha) * 255 + alpha * g) 255),
   clamp (ceil_div ((255 - alpha) * 255 + alpha * b) 255))

/-! ### Arithmetic helper lemmas -/

/-- In Python, `(v + s - 1) // s` is ceiling division by `s` for `s > 0`. -/
lemma fdiv_add_sub_one {v s : Int} (hs : 0 < s) :
    Int.fdiv (v + s - 1) s = ceil_div v s := by
  unfold ceil_div
  rw [Int.fdiv_eq_ediv _ hs.le, Int.fdiv_eq_ediv _ hs.le]
  set q := v / s with hq
  set r := v % s with hr
  have hr0 : 0 ≤ r := Int.emod_nonneg v hs.ne'
  have hrs : r < s := Int.emod_lt_of_pos v hs
  have h0 : q * s + r = v := by rw [hq, hr, mul_comm]; exact Int.ediv_add_emod v s
  have l1 : v + s - 1 = (r + s - 1) + q * s := by rw [← h0]; ring
  have l2 : -v = (-r) + (-q) * s := by rw [← h0]; ring
  rw [l1, Int.add_mul_ediv_right _ _ hs.ne', l2, Int.add_mul_ediv_right _ _ hs.ne']
  have key : (r + s - 1) / s = -((-r) / s) := by
    rcases eq_or_lt_of_le hr0 with h | h
    · rw [← h]
      rw [Int.ediv_eq_zero_of_lt (by omega) (by omega)]
      norm_num
    · have e1 : r + s - 1 = (r - 1) + 1 * s := by ring
      have e2 : -r = (s - r) + (-1) * s := by ring
      rw [e1, Int.add_mul_ediv_right _ _ hs.ne',
        Int.ediv_eq_zero_of_lt (by omega) (by omega), e2,
        Int.add_mul_ediv_right _ _ hs.ne',
        Int.ediv_eq_zero_of_lt (by omega) (by omega)]
      norm_num
  rw [key]; ring

/-- Lemma: `scale_crop` is clamp-after-ceiling-division, for any positive scale. -/
lemma scale_crop_eq (v s : Int) (hs : 0 < s) :
    scale_crop v s = clamp (ceil_div v s) := by
  unfold scale_crop clamp
  rw [fdiv_add_sub_one hs]
  simp only [max_def, min_def]
  split_ifs <;> omega

end Imconv

namespace Imconv

/-! ### Claim theorems: the pixel arithmetic -/

/-- C8: `scale_crop` with the default scale 256 is exactly
`clamp(ceil_div(v, 256), 0, 255)`, always lands in `[0, 255]`, and takes the
claimed values at `0`, `65280`, `65281` and `-1`. -/
theorem scale_crop_contract :
    (∀ v : Int, scale_crop v = clamp (ceil_div v 256) ∧
      0 ≤ scale_crop v ∧ scale_crop v ≤ 255) ∧
    scale_crop 0 = 0 ∧ scale_crop 65280 = 255 ∧
    scale_crop 65281 = 255 ∧ scale_crop (-1) = 0 := by
  refine ⟨fun v => ⟨scale_crop_eq v 256 (by norm_num), ?_, ?_⟩, by decide, by decide,
      by decide, by decide⟩ <;>
  · simp only [scale_crop]
    split_ifs <;> omega

/-- C6: the per-pixel value fed to the downscaler is the luma of the
channel-inverted triple: `clamp(ceil_div(76*(255-r) + 150*(255-g) +
29*(255-b), 256), 0, 255)`; the inversion happens before the luma weights. -/
theorem luma_of_inverted (r g b : Int) :
    lumaInv (r, g, b) =
      clamp (ceil_div (76 * (255 - r) + 150 * (255 - g) + 29 * (255 - b)) 256) := by
  show scale_crop (76 * (255 - r) + 150 * (255 - g) + 29 * (255 - b)) = _
  exact scale_crop_eq _ 256 (by norm_num)

/-- C2 counterexample: at the RGBA pixel `(128, 128, 128, 2)` the program
composites each channel to `254` (ceiling division by 256 via `scale_crop`),
while the claimed formula with ceiling division by 255 gives `255`. -/
theorem rgba_div255_counterexample :
    rgba2rgb 128 128 128 2 = (254, 254, 254) ∧
    rgba2rgb_claim255 128 128 128 2 = (255, 255, 255) ∧
    (254 : Int) ≠ 255 := by
  refine ⟨by decide, by decide, by decide⟩

/-- C2 amended: each channel of the white-background composite goes through
ceiling division by 256 (the `scale_crop` default), not 255:
`out = clamp(ceil_div((255 - a)*255 + a*c, 256), 0, 255)`. -/
theorem rgba2rgb_scale256 (r g b a : Int) :
    rgba2rgb r g b a =
      (clamp (ceil_div ((255 - a) * 255 + a * r) 256),
       clamp (ceil_div ((255 - a) * 255 + a * g) 256),
       clamp (ceil_div ((255 - a) * 255 + a * b) 256)) := by
  unfold rgba2rgb
  rw [scale_crop_eq _ 256 (by norm_num), scale_crop_eq _ 256 (by norm_num),
    scale_crop_eq _ 256 (by norm_num)]

/-- C9 counterexample: for the tag `I;4` (bit depth 4, accepted by the
color-model check since it splits as `["I", "4"]`) the divisor
`i_mode // 256 = 2^4 // 256` is `0`, and the normalisation crashes
(ZeroDivisionError, modelled as `none`) instead of being well defined. -/
theorem gray_bits4_counterexample :
    ((1 <<< 4 : Nat) / 256 = 0) ∧ grayToRgb (1 <<< 4) 0 = none := by
  refine ⟨by decide, by decide⟩

/-- C9 amended: for every bit depth `bits ≥ 8` the divisor `2^bits / 256` is
nonzero and each raw sample `s` is normalised to
`clamp(ceil_div(s, 2^bits / 256), 0, 255)`, broadcast to all three channels;
for `bits < 8` the divisor is zero and the conversion fails. -/
theorem gray_norm_bits_ge8 (bits : Nat) (hb : 8 ≤ bits) (s : Int) :
    grayToRgb (1 <<< bits) s =
      some (clamp (ceil_div s ((2 ^ bits : Int) / 256)),
            clamp (ceil_div s ((2 ^ bits : Int) / 256)),
            clamp (ceil_div s ((2 ^ bits : Int) / 256))) := by
  have hpow : (256 : Nat) ≤ 2 ^ bits := by
    calc (256 : Nat) = 2 ^ 8 := by norm_num
    _ ≤ 2 ^ bits := Nat.pow_le_pow_right (by norm_num) hb
  have hshift : (1 <<< bits : Nat) = 2 ^ bits := by
    rw [Nat.shiftLeft_eq, one_mul]
  have hd : (0 : Nat) < 2 ^ bits / 256 := (Nat.one_le_div_iff (by norm_num)).2 hpow
  have hcast : ((2 ^ bits / 256 : Nat) : Int) = (2 ^ bits : Int) / 256 := by
    rw [Int.ofNat_ediv]
    norm_num
  unfold grayToRgb
  rw [hshift]
  rw [if_neg (by omega)]
  rw [scale_crop_eq _ _ (by exact_mod_cast hd), hcast]

/-- C9 amended witness: at bit depth 16 and sample 1000 the normalisation
succeeds with value `ceil(1000 / 256) = 4` on every channel. -/
theorem gray_norm_bits_ge8_witness :
    (8 ≤ 16) ∧ grayToRgb (1 <<< 16) 1000 =
      some (clamp (ceil_div 1000 ((2 ^ 16 : Int) / 256)),
            clamp (ceil_div 1000 ((2 ^ 16 : Int) / 256)),
            clamp (ceil_div 1000 ((2 ^ 16 : Int) / 256))) :=
  ⟨by norm_num, gray_norm_bits_ge8 16 (by norm_num) 1000⟩

end Imconv

namespace Imconv

/-! ### The Bit Packer -/

/-- ORing a fresh power-of-two bit into an accumulator below it is addition. -/
lemma lor_two_pow {b k : Nat} (h : b < 2 ^ k) : b ||| 2 ^ k = b + 2 ^ k := by
  apply Nat.eq_of_testBit_eq
  intro i
  rw [Nat.testBit_or]
  rcases lt_trichotomy i k with hik | hik | hik
  · rw [Nat.add_comm b, Nat.testBit_two_pow_add_gt hik,
      Nat.testBit_two_pow_of_ne (by omega)]
    simp
  · subst hik
    rw [Nat.add_comm b, Nat.testBit_two_pow_add_eq, Nat.testBit_lt_two_pow h,
      Nat.testBit_two_pow_self]
    simp
  · have hki : 2 ^ (k + 1) ≤ 2 ^ i := Nat.pow_le_pow_right (by norm_num) hik
    have hp : 2 ^ (k + 1) = 2 ^ k + 2 ^ k := by rw [pow_succ]; ring
    rw [Nat.testBit_lt_two_pow (x := b + 2 ^ k) (by omega),
      Nat.testBit_lt_two_pow (x := b) (by omega),
      Nat.testBit_two_pow_of_ne (by omega)]
    simp

lemma pagePartial_succ (g : List (List Bool)) (hn n x j : Nat) :
    pagePartial g hn n x (j + 1) =
      pagePartial g hn n x j +
        if n * 8 + j < hn ∧ gridGet g (n * 8 + j) x then 2 ^ j else 0 := by
  unfold pagePartial
  rw [List.range_succ, List.foldl_append, List.foldl_cons, List.foldl_nil]

lemma pagePartial_lt (g : List (List Bool)) (hn n x : Nat) :
    ∀ j, pagePartial g hn n x j < 2 ^ j := by
  intro j
  induction j with
  | zero => simp [pagePartial]
  | succ j ih =>
    rw [pagePartial_succ]
    have hp : 2 ^ (j + 1) = 2 ^ j + 2 ^ j := by rw [pow_succ]; ring
    split_ifs <;> omega

/-- Running the first `j ≤ 7` inner-loop iterations of a column from a fresh
accumulator: `byte` holds the partial page byte and the mask is `2 ^ j`. -/
lemma bitStep_run (g : List (List Bool)) (hn n x : Nat) (res : List Nat) :
    ∀ j, j ≤ 7 →
      (List.range j).foldl (fun s y => bitStep g hn x (n * 8 + y) s) ⟨0, 1, res⟩ =
        ⟨pagePartial g hn n x j, 2 ^ j, res⟩ := by
  intro j
  induction j with
  | zero => intro _; rfl
  | succ j ih =>
    intro hj
    rw [List.range_succ, List.foldl_append, ih (by omega), List.foldl_cons,
      List.foldl_nil]
    have hoff : (2 ^ j <<< 1) = 2 ^ (j + 1) := by
      rw [Nat.shiftLeft_eq, pow_one, ← pow_succ]
    have hlt : ¬ (2 ^ j <<< 1 ≥ 256) := by
      rw [hoff]
      have : 2 ^ (j + 1) ≤ 2 ^ 7 := Nat.pow_le_pow_right (by norm_num) (by omega)
      omega
    unfold bitStep
    dsimp only
    rw [if_neg hlt, hoff, pagePartial_succ]
    by_cases hc : n * 8 + j < hn ∧ gridGet g (n * 8 + j) x
    · rw [if_pos hc, if_pos hc, lor_two_pow (pagePartial_lt g hn n x j)]
    · rw [if_neg hc, if_neg hc]
      simp

/-- One full column of one page appends exactly the page byte and restores a
fresh accumulator; the partial-byte flush of lines 356-359 never fires because
the inner loop always runs exactly 8 iterations. -/
lemma packColumn_run (g : List (List Bool)) (hn n x : Nat) (res : List Nat) :
    packColumn g hn n x ⟨0, 1, res⟩ = ⟨0, 1, res ++ [pagePartial g hn n x 8]⟩ := by
  unfold packColumn
  have h8 : List.range 8 = List.range 7 ++ [7] := List.range_succ 7
  rw [h8, List.foldl_append, bitStep_run g hn n x res 7 le_rfl, List.foldl_cons,
    List.foldl_nil]
  unfold bitStep
  dsimp only
  rw [if_pos (show (2 : Nat) ^ 7 <<< 1 ≥ 256 by norm_num [Nat.shiftLeft_eq])]
  rw [if_neg (show ¬ ((1 : Nat) > 1) by norm_num)]
  have h78 : pagePartial g hn n x 8 =
      pagePartial g hn n x 7 +
        if n * 8 + 7 < hn ∧ gridGet g (n * 8 + 7) x then 2 ^ 7 else 0 :=
    pagePartial_succ g hn n x 7
  rw [h78]
  by_cases hc : n * 8 + 7 < hn ∧ gridGet g (n * 8 + 7) x
  · rw [if_pos hc, if_pos hc, lor_two_pow (pagePartial_lt g hn n x 7)]
  · rw [if_neg hc, if_neg hc]
    simp

/-- The middle (column) loop maps a fresh accumulator over any list of
columns, appending one page byte per column. -/
lemma packColumns_run (g : List (List Bool)) (hn n : Nat) :
    ∀ (xs : List Nat) (res : List Nat),
      xs.foldl (fun s x => packColumn g hn n x s) ⟨0, 1, res⟩ =
        ⟨0, 1, res ++ xs.map (fun x => pagePartial g hn n x 8)⟩ := by
  intro xs
  induction xs with
  | nil => intro res; simp
  | cons x xs ih =>
    intro res
    rw [List.foldl_cons, packColumn_run, ih, List.map_cons]
    simp

/-- The outer (page) loop concatenates the page bytes of every page. -/
lemma packPages_run (g : List (List Bool)) (hn wn : Nat) :
    ∀ (ns : List Nat) (res : List Nat),
      ns.foldl
        (fun s n => (List.range wn).foldl (fun s2 x => packColumn g hn n x s2) s)
        ⟨0, 1, res⟩ =
        ⟨0, 1, res ++ ns.flatMap
          (fun n => (List.range wn).map (fun x => pagePartial g hn n x 8))⟩ := by
  intro ns
  induction ns with
  | nil => intro res; simp
  | cons n ns ih =>
    intro res
    rw [List.foldl_cons, packColumns_run, ih, List.flatMap_cons, List.append_assoc]

/-- Closed form of the packed stream: pages outer, columns inner, one byte per
(page, column) pair; the final flush of lines 364-365 never fires. -/
lemma pack_eq (g : List (List Bool)) (hn wn hn2 : Nat) :
    pack g hn wn hn2 =
      (List.range hn2).flatMap
        (fun n => (List.range wn).map (fun x => pagePartial g hn n x 8)) := by
  unfold pack
  rw [packPages_run]
  simp

lemma pack_length (g : List (List Bool)) (hn wn hn2 : Nat) :
    (pack g hn wn hn2).length = hn2 * wn := by
  rw [pack_eq]
  induction hn2 with
  | zero => simp
  | succ k ih =>
    rw [List.range_succ, List.flatMap_append, List.length_append, ih]
    simp [Nat.succ_mul]

end Imconv

namespace Imconv

lemma flat_length (wn : Nat) (F : Nat → List Nat) (hF : ∀ n, (F n).length = wn) :
    ∀ k, ((List.range k).flatMap F).length = k * wn := by
  intro k
  induction k with
  | zero => simp
  | succ k ih =>
    rw [List.range_succ, List.flatMap_append, List.length_append, ih]
    simp [hF, Nat.succ_mul]

/-- Indexing the concatenation of `k` blocks of equal length `wn`. -/
lemma flat_index (wn : Nat) (F : Nat → List Nat) (hF : ∀ n, (F n).length = wn) :
    ∀ k p x, p < k → x < wn →
      ((List.range k).flatMap F)[p * wn + x]? = (F p)[x]? := by
  intro k
  induction k with
  | zero => intro p x hp _; omega
  | succ k ih =>
    intro p x hp hx
    rw [List.range_succ, List.flatMap_append]
    rcases Nat.lt_or_ge p k with hpk | hpk
    · rw [List.getElem?_append_left]
      · exact ih p x hpk hx
      · rw [flat_length wn F hF k]
        calc p * wn + x < p * wn + wn := by omega
        _ = (p + 1) * wn := by ring
        _ ≤ k * wn := Nat.mul_le_mul_right wn (by omega)
    · have hpk' : p = k := by omega
      subst hpk'
      rw [List.getElem?_append_right (by rw [flat_length wn F hF p]; omega)]
      rw [flat_length wn F hF p]
      simp [Nat.add_sub_cancel_left]

/-- The `j`-bit partial page byte as the sum the specification describes. -/
lemma pagePartial_eq_sum (g : List (List Bool)) (hn n x : Nat) :
    ∀ j, pagePartial g hn n x j =
      ∑ y ∈ Finset.range j,
        if n * 8 + y < hn ∧ gridGet g (n * 8 + y) x then 2 ^ y else 0 := by
  intro j
  induction j with
  | zero => simp [pagePartial]
  | succ j ih =>
    rw [pagePartial_succ, ih, Finset.sum_range_succ]

/-- C1: the Bit Packer layout.  For every page `p` and column `x`, the packed
byte at index `p * wn + x` is `∑ y < 8, 2 ^ y` over the rows `p * 8 + y` that
are below `hn` and lit in the grid; bit 0 is the topmost row of the page and
rows at or beyond `hn` contribute nothing, so the unused high bits of the
final page are zero. -/
theorem pack_layout (g : List (List Bool)) (hn wn p x : Nat)
    (hp : p < (hn + 8 - 1) / 8) (hx : x < wn) :
    (pack g hn wn ((hn + 8 - 1) / 8))[p * wn + x]? =
      some (∑ y ∈ Finset.range 8,
        if p * 8 + y < hn ∧ gridGet g (p * 8 + y) x then 2 ^ y else 0) := by
  rw [pack_eq, flat_index wn _ (fun n => by simp) ((hn + 8 - 1) / 8) p x hp hx,
    List.getElem?_map, List.getElem?_range hx]
  simp [pagePartial_eq_sum]

/-- A quarter-lit 12×3 grid used to witness the packer theorems: bit set
where `x + y` is even. -/
def gridW : List (List Bool) :=
  (List.range 12).map fun y => (List.range 3).map fun x => decide ((x + y) % 2 = 0)

/-- C1 witness: on a concrete 12-row (one full page plus a partial page),
3-column grid, the byte of page 1, column 2 matches the layout sum. -/
theorem pack_layout_witness :
    1 < (12 + 8 - 1) / 8 ∧ 2 < 3 ∧
      (pack gridW 12 3 ((12 + 8 - 1) / 8))[1 * 3 + 2]? =
        some (∑ y ∈ Finset.range 8,
          if 1 * 8 + y < 12 ∧ gridGet gridW (1 * 8 + y) 2 then 2 ^ y else 0) :=
  ⟨by norm_num, by norm_num, pack_layout gridW 12 3 1 2 (by norm_num) (by norm_num)⟩

end Imconv

namespace Imconv

/-! ### Option-monad traversal lemmas -/

lemma mapM'_eq_none_of_mem {α β : Type} {f : α → Option β} {l : List α} {a : α}
    (ha : a ∈ l) (hf : f a = none) : l.mapM' f = none := by
  induction l with
  | nil => cases ha
  | cons b t ih =>
    rcases List.mem_cons.1 ha with hab | hat
    · subst hab
      simp [List.mapM'_cons, hf]
    · cases hfb : f b
      · simp [List.mapM'_cons, hfb]
      · simp [List.mapM'_cons, hfb, ih hat]

/-- A traversal fails as soon as any element fails. -/
lemma mapM_eq_none_of_mem {α β : Type} {f : α → Option β} {l : List α} {a : α}
    (ha : a ∈ l) (hf : f a = none) : l.mapM f = none := by
  rw [← List.mapM'_eq_mapM]
  exact mapM'_eq_none_of_mem ha hf

lemma mapM'_eq_map_of_forall {α β : Type} {f : α → Option β} {gf : α → β} :
    ∀ {l : List α}, (∀ a ∈ l, f a = some (gf a)) → l.mapM' f = some (l.map gf) := by
  intro l
  induction l with
  | nil => intro _; rfl
  | cons b t ih =>
    intro h
    have hb := h b (List.mem_cons_self b t)
    simp [List.mapM'_cons, hb, ih fun a ha => h a (List.mem_cons_of_mem b ha)]

/-- A traversal whose every element succeeds is the corresponding map. -/
lemma mapM_eq_map_of_forall {α β : Type} {f : α → Option β} {gf : α → β}
    {l : List α} (h : ∀ a ∈ l, f a = some (gf a)) : l.mapM f = some (l.map gf) := by
  rw [← List.mapM'_eq_mapM]
  exact mapM'_eq_map_of_forall h

/-! ### End-to-end conversions -/

/-- A 16×16 fully opaque solid-black RGB source image: every in-range pixel is
`(0, 0, 0)`, out-of-range access fails. -/
def blackPx : Nat → Nat → Option (Int × Int × Int) :=
  fun x y => if x < 16 ∧ y < 16 then some (0, 0, 0) else none

/-- A 16×16 fully opaque solid-white RGB source image. -/
def whitePx : Nat → Nat → Option (Int × Int × Int) :=
  fun x y => if x < 16 ∧ y < 16 then some (255, 255, 255) else none

set_option maxRecDepth 20000 in
/-- C3: with default parameters (`dest_w = 16`, `dest_h = 16`, `thr = 127`),
a 16×16 solid-black RGB source converts to exactly 32 bytes all `0xFF`, and a
16×16 solid-white RGB source converts to exactly 32 bytes all `0x00`. -/
theorem convert_black_white_16 :
    convert blackPx 16 16 16 16 127 = some (List.replicate 32 255) ∧
    convert whitePx 16 16 16 16 127 = some (List.replicate 32 0) := by
  constructor <;> decide

/-- C7: every conversion that passes the dimension check produces a packed
stream of exactly `dest_w * ceil(dest_h / 8)` bytes. -/
theorem convert_length (px : Nat → Nat → Option (Int × Int × Int))
    (w h dest_w dest_h : Nat) (thr : Int) (out : List Nat)
    (hout : convert px w h dest_w dest_h thr = some out) :
    out.length = dest_w * ((dest_h + 8 - 1) / 8) := by
  unfold convert at hout
  by_cases h1 : dest_w = 0 ∨ dest_h = 0
  · rw [if_pos h1] at hout
    exact absurd hout (by simp)
  · rw [if_neg h1] at hout
    by_cases h2 : h / scale_factor h dest_h ≠ dest_h ∨ w / scale_factor w dest_w ≠ dest_w
    · rw [if_pos h2] at hout
      exact absurd hout (by simp)
    · rw [if_neg h2] at hout
      push_neg at h2
      obtain ⟨hh, hw⟩ := h2
      cases hbg : buildGrid px w h (scale_factor w dest_w) (scale_factor h dest_h) thr with
      | none => rw [hbg] at hout; exact absurd hout (by simp)
      | some g =>
        rw [hbg, Option.map_some'] at hout
        have hpk := Option.some.inj hout
        rw [← hpk, pack_length, hh, hw, Nat.mul_comm]

/-- A 2×2 solid-black source, used to witness the length theorem. -/
def blackPx2 : Nat → Nat → Option (Int × Int × Int) :=
  fun x y => if x < 2 ∧ y < 2 then some (0, 0, 0) else none

/-- C7 witness: the 2×2 conversion succeeds with `2 * ceil(2/8) = 2` bytes. -/
theorem convert_length_witness : ([3, 3] : List Nat).length = 2 * ((2 + 8 - 1) / 8) :=
  convert_length blackPx2 2 2 2 2 127 [3, 3] (by decide)

/-- C10: a source strictly smaller than the destination on either axis can
never convert: the scale factor on that axis is clamped to 1, the result
dimension equals the source dimension, and the dimension check fails before
any output is produced. -/
theorem convert_upscale_fails (px : Nat → Nat → Option (Int × Int × Int))
    (w h dest_w dest_h : Nat) (thr : Int) (hlt : w < dest_w ∨ h < dest_h) :
    convert px w h dest_w dest_h thr = none ∧
      (w < dest_w → scale_factor w dest_w = 1 ∧ w / scale_factor w dest_w = w) ∧
      (h < dest_h → scale_factor h dest_h = 1 ∧ h / scale_factor h dest_h = h) := by
  have hsf : ∀ a b : Nat, a < b → scale_factor a b = 1 := by
    intro a b hab
    unfold scale_factor
    rw [Nat.div_eq_of_lt hab]
    rfl
  refine ⟨?_, fun hw => ⟨hsf w dest_w hw, by rw [hsf w dest_w hw, Nat.div_one]⟩,
    fun hh => ⟨hsf h dest_h hh, by rw [hsf h dest_h hh, Nat.div_one]⟩⟩
  unfold convert
  by_cases hz : dest_w = 0 ∨ dest_h = 0
  · rw [if_pos hz]
  · have hcond : h / scale_factor h dest_h ≠ dest_h ∨
        w / scale_factor w dest_w ≠ dest_w := by
      rcases hlt with hw | hh
      · right
        rw [hsf w dest_w hw, Nat.div_one]
        omega
      · left
        rw [hsf h dest_h hh, Nat.div_one]
        omega
    rw [if_neg hz, if_pos hcond]

/-- C10 witness: an 8×8 source cannot be converted to 16×16. -/
theorem convert_upscale_fails_witness :
    convert blackPx2 8 8 16 16 127 = none ∧ scale_factor 8 16 = 1 :=
  ⟨(convert_upscale_fails blackPx2 8 8 16 16 127 (Or.inl (by norm_num))).1,
   ((convert_upscale_fails blackPx2 8 8 16 16 127 (Or.inl (by norm_num))).2.1
     (by norm_num)).1⟩

end Imconv

namespace Imconv

/-! ### Failure on non-exact tiling, and the downscaler contract -/

/-- When `s` does not divide `m`, the loop `range(0, m, s)` has one more
iteration than `m / s`. -/
lemma lt_ceil_div_self {m s : Nat} (hs : 0 < s) (hm : m % s ≠ 0) :
    m / s < (m + s - 1) / s := by
  have h1 : m / s + 1 ≤ (m + s - 1) / s := by
    refine (Nat.le_div_iff_mul_le hs).2 ?_
    have hqr : m / s * s + m % s = m := Nat.div_add_mod' m s
    have hrs : m % s < s := Nat.mod_lt m hs
    obtain ⟨t, ht⟩ : ∃ t, m / s * s = t := ⟨_, rfl⟩
    rw [ht] at hqr
    have h2 : (m / s + 1) * s = t + s := by rw [← ht]; ring
    rw [h2]
    omega
  omega

lemma ceil_div_pos {m s : Nat} (hs : 0 < s) (hm : 0 < m) : 0 < (m + s - 1) / s := by
  have h1 : 1 ≤ (m + s - 1) / s := (Nat.le_div_iff_mul_le hs).2 (by omega)
  omega

/-- Exact tiling: `range(0, d*s, s)` has exactly `d` iterations. -/
lemma exact_ceil_div {d s : Nat} (hs : 0 < s) : (d * s + s - 1) / s = d := by
  have h1 : d * s + s - 1 = (s - 1) + d * s := by
    obtain ⟨t, ht⟩ : ∃ t, d * s = t := ⟨_, rfl⟩
    rw [ht]
    omega
  rw [h1, Nat.add_mul_div_right _ _ hs, Nat.div_eq_of_lt (by omega), Nat.zero_add]

lemma scale_factor_pos (dim dest : Nat) : 0 < scale_factor dim dest := by
  unfold scale_factor
  split_ifs <;> omega

/-- C4: non-exact tiling always fails before producing any output.  If either
scale factor fails to divide its source dimension, or the resulting grid
dimensions differ from the requested destination, the conversion yields
nothing: the dimension check aborts, or, when it happens to pass with a
non-dividing factor, the block loop reads past the image and raises. -/
theorem convert_nonexact_fails (px : Nat → Nat → Option (Int × Int × Int))
    (w h dest_w dest_h : Nat) (thr : Int)
    (hpx : ∀ x y, w ≤ x ∨ h ≤ y → px x y = none)
    (hbad : w % scale_factor w dest_w ≠ 0 ∨ h % scale_factor h dest_h ≠ 0 ∨
      w / scale_factor w dest_w ≠ dest_w ∨ h / scale_factor h dest_h ≠ dest_h) :
    convert px w h dest_w dest_h thr = none := by
  unfold convert
  by_cases hz : dest_w = 0 ∨ dest_h = 0
  · rw [if_pos hz]
  · rw [if_neg hz]
    by_cases hchk : h / scale_factor h dest_h ≠ dest_h ∨
      w / scale_factor w dest_w ≠ dest_w
    · rw [if_pos hchk]
    · rw [if_neg hchk]
      push_neg at hchk hz
      obtain ⟨hh, hw⟩ := hchk
      obtain ⟨hzw, hzh⟩ := hz
      set sx := scale_factor w dest_w with hsxdef
      set sy := scale_factor h dest_h with hsydef
      have hsx : 0 < sx := scale_factor_pos w dest_w
      have hsy : 0 < sy := scale_factor_pos h dest_h
      have hwpos : 0 < w := by
        have h1 : 1 ≤ w / sx := by rw [hw]; omega
        have := (Nat.le_div_iff_mul_le hsx).1 h1
        omega
      have hhpos : 0 < h := by
        have h1 : 1 ≤ h / sy := by rw [hh]; omega
        have := (Nat.le_div_iff_mul_le hsy).1 h1
        omega
      suffices hbg : buildGrid px w h sx sy thr = none by rw [hbg]; rfl
      rcases hbad with hbw | hbh | hc | hc
      · -- the x loop over-runs: column w / sx reads the pixel at x = w
        unfold buildGrid
        refine mapM_eq_none_of_mem (List.mem_range.2 (ceil_div_pos hsy hhpos))
          (mapM_eq_none_of_mem (a := w / sx)
            (List.mem_range.2 (lt_ceil_div_self hsx hbw)) ?_)
        have hcell : cellValue px sx sy (w / sx * sx) (0 * sy) = none := by
          unfold cellValue
          have hmm : ((blockPixels sx sy (w / sx * sx) (0 * sy)).mapM
              fun c => (px c.1 c.2).map lumaInv) = none := by
            refine mapM_eq_none_of_mem (a := (w, 0 * sy)) ?_ ?_
            · refine List.mem_flatMap.2 ⟨0, List.mem_range.2 hsy, ?_⟩
              refine List.mem_map.2 ⟨w % sx, List.mem_range.2 (Nat.mod_lt w hsx), ?_⟩
              have h1 : w / sx * sx + w % sx = w := Nat.div_add_mod' w sx
              simp [h1]
            · rw [hpx w (0 * sy) (Or.inl le_rfl)]
              rfl
          rw [hmm]
          rfl
        rw [hcell]
        rfl
      · -- the y loop over-runs: row h / sy reads the pixel at y = h
        unfold buildGrid
        refine mapM_eq_none_of_mem (a := h / sy)
          (List.mem_range.2 (lt_ceil_div_self hsy hbh))
          (mapM_eq_none_of_mem (List.mem_range.2 (ceil_div_pos hsx hwpos)) ?_)
        have hcell : cellValue px sx sy (0 * sx) (h / sy * sy) = none := by
          unfold cellValue
          have hmm : ((blockPixels sx sy (0 * sx) (h / sy * sy)).mapM
              fun c => (px c.1 c.2).map lumaInv) = none := by
            refine mapM_eq_none_of_mem (a := (0 * sx, h)) ?_ ?_
            · refine List.mem_flatMap.2 ⟨h % sy, List.mem_range.2 (Nat.mod_lt h hsy), ?_⟩
              refine List.mem_map.2 ⟨0, List.mem_range.2 hsx, ?_⟩
              have h1 : h / sy * sy + h % sy = h := Nat.div_add_mod' h sy
              simp [h1]
            · rw [hpx (0 * sx) h (Or.inr le_rfl)]
              rfl
          rw [hmm]
          rfl
        rw [hcell]
        rfl
      · exact absurd hw hc
      · exact absurd hh hc

/-- A 33×16 solid-black source: `33 // 16 = 2` gives `wn = 33 // 2 = 16`, so
the dimension check passes although `33 % 2 = 1`. -/
def px33 : Nat → Nat → Option (Int × Int × Int) :=
  fun x y => if x < 33 ∧ y < 16 then some (0, 0, 0) else none

/-- C4 witness: converting the 33×16 source to 16×16 fails. -/
theorem convert_nonexact_fails_witness : convert px33 33 16 16 16 127 = none :=
  convert_nonexact_fails px33 33 16 16 16 127
    (fun x y hxy => by unfold px33; rw [if_neg (by omega)])
    (Or.inl (by decide))

end Imconv

namespace Imconv

/-- C5: the Block Downscaler contract under exact tiling.  For destination
pixel `(dx, dy)` the grid bit equals `decide(r > thr)` where `r` is the floor
mean of the inverted-luma of the `sx * sy` source pixels of the block
`[dx*sx, dx*sx+sx) × [dy*sy, dy*sy+sy)`; in particular a block whose mean
equals the threshold exactly yields bit 0 (strict comparison). -/
theorem downscale_threshold (px : Nat → Nat → Option (Int × Int × Int))
    (pxf : Nat → Nat → Int × Int × Int) (dest_w dest_h sx sy : Nat) (thr : Int)
    (hsx : 0 < sx) (hsy : 0 < sy)
    (hpx : ∀ x y, x < dest_w * sx → y < dest_h * sy → px x y = some (pxf x y))
    (dx dy : Nat) (hdx : dx < dest_w) (hdy : dy < dest_h) :
    ∃ g, buildGrid px (dest_w * sx) (dest_h * sy) sx sy thr = some g ∧
      gridGet g dy dx = decide
        (Int.fdiv (((blockPixels sx sy (dx * sx) (dy * sy)).map
          fun c => lumaInv (pxf c.1 c.2)).sum) (sx * sy : Nat) > thr) ∧
      (Int.fdiv (((blockPixels sx sy (dx * sx) (dy * sy)).map
          fun c => lumaInv (pxf c.1 c.2)).sum) (sx * sy : Nat) = thr →
        gridGet g dy dx = false) := by
  have hcell : ∀ a, a < dest_w → ∀ b, b < dest_h →
      cellValue px sx sy (a * sx) (b * sy) =
        some (Int.fdiv (((blockPixels sx sy (a * sx) (b * sy)).map
          fun c => lumaInv (pxf c.1 c.2)).sum) (sx * sy : Nat)) := by
    intro a ha b hb
    unfold cellValue
    rw [mapM_eq_map_of_forall ?_]
    · rfl
    · intro c hc
      unfold blockPixels at hc
      rw [List.mem_flatMap] at hc
      obtain ⟨yy, hyy, hc⟩ := hc
      rw [List.mem_map] at hc
      obtain ⟨xx, hxx, rfl⟩ := hc
      rw [List.mem_range] at hyy hxx
      have hX : a * sx + xx < dest_w * sx := by
        calc a * sx + xx < a * sx + sx := by omega
        _ = (a + 1) * sx := by ring
        _ ≤ dest_w * sx := Nat.mul_le_mul_right sx (by omega)
      have hY : b * sy + yy < dest_h * sy := by
        calc b * sy + yy < b * sy + sy := by omega
        _ = (b + 1) * sy := by ring
        _ ≤ dest_h * sy := Nat.mul_le_mul_right sy (by omega)
      rw [hpx (a * sx + xx) (b * sy + yy) hX hY]
      rfl
  refine ⟨(List.range dest_h).map fun b => (List.range dest_w).map fun a =>
    decide (Int.fdiv (((blockPixels sx sy (a * sx) (b * sy)).map
      fun c => lumaInv (pxf c.1 c.2)).sum) (sx * sy : Nat) > thr), ?_, ?_, ?_⟩
  · unfold buildGrid
    rw [exact_ceil_div hsy, exact_ceil_div hsx]
    refine mapM_eq_map_of_forall ?_
    intro b hb
    rw [List.mem_range] at hb
    refine mapM_eq_map_of_forall ?_
    intro a ha
    rw [List.mem_range] at ha
    rw [hcell a ha b hb]
    rfl
  · unfold gridGet
    simp [List.getD_eq_getElem?_getD, List.getElem?_range hdy, List.getElem?_range hdx]
  · intro hM
    unfold gridGet
    rw [Nat.cast_mul] at hM
    simp [List.getD_eq_getElem?_getD, List.getElem?_range hdy, List.getElem?_range hdx,
      hM]

/-- A constant black 4×4 source as a total pixel function. -/
def pxf4 : Nat → Nat → Int × Int × Int := fun _ _ => (0, 0, 0)

/-- The same 4×4 source as a bounds-checked accessor. -/
def px4 : Nat → Nat → Option (Int × Int × Int) :=
  fun x y => if x < 4 ∧ y < 4 then some (pxf4 x y) else none

/-- C5 witness: the 4×4 black source downscaled 2× at threshold 127 lights
destination pixel (1, 0). -/
theorem downscale_threshold_witness :
    ∃ g, buildGrid px4 (2 * 2) (2 * 2) 2 2 127 = some g ∧
      gridGet g 0 1 = decide
        (Int.fdiv (((blockPixels 2 2 (1 * 2) (0 * 2)).map
          fun c => lumaInv (pxf4 c.1 c.2)).sum) ((2 * 2 : Nat)) > 127) ∧
      (Int.fdiv (((blockPixels 2 2 (1 * 2) (0 * 2)).map
          fun c => lumaInv (pxf4 c.1 c.2)).sum) ((2 * 2 : Nat)) = 127 →
        gridGet g 0 1 = false) :=
  downscale_threshold px4 pxf4 2 2 2 2 127 (by norm_num) (by norm_num)
    (fun x y hx hy => by unfold px4; rw [if_pos ⟨by omega, by omega⟩])
    1 0 (by norm_num) (by norm_num)

end Imconv
